import Mathlib

/-!
Verification of the multi-strategy similarity-search engine of `src/main1.py`
(class `SimpleRAGApp`): the similarity scorer, the five strategy handlers
(`_flat_search`, `_hnsw_search`, `_ivf_search`, `_bm25_search`, `_mmr_search`)
and the dispatching `similarity_search`.

Modelling conventions:
* Embedding vectors are lists of rationals (`Vec`).  IEEE-754 doubles are
  modelled by `FV`, a rational tagged with an explicit `nan` constructor:
  the only NaN source reachable in this code is the cosine division
  `0.0 / 0.0` arising from a zero-norm vector (a zero norm forces a zero
  dot product, see `np_dot_self_eq_zero_imp`), and every comparison,
  `max`, product and difference propagates NaN exactly as IEEE-754 does.
  All concrete inputs used below have perfect-square squared norms, so the
  rational square root `ratSqrt` computes the exact real value on them.
* External collaborators are parameters: `embed` stands for
  `genai.embed_content` (per spec section 6, fails with `EmbedFailure`),
  `ti` stands for the MongoDB text index consulted by `_bm25_search`
  (fails with `IndexUnavailable`); `.limit(top_k)` is `List.take top_k`.
* The corpus is the content of `self.collection` in insertion order;
  `find({})` enumerates it in that order, and a range query on `chunk_id`
  is a `filter`.  The spec's data-model invariant (section 3) that ids are
  dense over `0..N-1` is the predicate `DenseIds`.
* Python's `list.sort(key=..., reverse=True)` is the stable descending
  sort `sortDesc`.  For non-NaN keys its output is the unique stable
  descending reordering, hence coincides with CPython's timsort; the NaN
  counterexamples below use two-element lists, on which CPython's
  reverse/sort/reverse pipeline performs the single comparison also
  performed by `sortDesc`.
* `similarity_search` wraps every handler in `try/except` returning `[]`;
  a raised exception is `PyResult.exc`, and the non-termination of the
  MMR while-loop (possible, see C10) is `PyResult.hang` / `Option.none`.
-/

/-- A Python float as it occurs in this program: a rational or NaN. -/
inductive FV where
  | nan : FV
  | val : ℚ → FV
deriving DecidableEq

/-- IEEE `<` : any comparison with NaN is false. -/
def FV.lt : FV → FV → Bool
  | .val a, .val b => decide (a < b)
  | _, _ => false

/-- IEEE `<=` : any comparison with NaN is false. -/
def FV.le : FV → FV → Bool
  | .val a, .val b => decide (a ≤ b)
  | _, _ => false

/-- IEEE product; NaN propagates. -/
def FV.mul : FV → FV → FV
  | .val a, .val b => .val (a * b)
  | _, _ => .nan

/-- IEEE difference; NaN propagates. -/
def FV.sub : FV → FV → FV
  | .val a, .val b => .val (a - b)
  | _, _ => .nan

/-- Python `max(a, b)`: returns `b` when `b > a`, else `a` (so a NaN
second argument is never picked, and a NaN first argument survives). -/
def fvMax (a b : FV) : FV := if FV.lt a b then b else a

/-- An embedding vector. -/
abbrev Vec := List ℚ

/-- `np.dot` on equal-length float lists: sum of pointwise products. -/
def np_dot (a b : Vec) : ℚ := (List.zipWith (fun x y => x * y) a b).sum

/-- Exact integer square root, when it exists. -/
def intSqrt? (n : Nat) : Option Nat :=
  (List.range (n + 1)).find? (fun r => r * r == n)

/-- Exact square root on the rationals whose numerator and denominator are
perfect squares (every squared norm appearing in a concrete input below is
of this shape).  On other positive inputs it returns the placeholder `1`:
like the real square root it is zero exactly on `x ≤ 0` and positive on
`x > 0`, which is the only property the theorems below depend on. -/
def ratSqrt (x : ℚ) : ℚ :=
  if x ≤ 0 then 0
  else
    match intSqrt? x.num.toNat, intSqrt? x.den with
    | some a, some b => (a : ℚ) / (b : ℚ)
    | _, _ => 1

/-- `np.linalg.norm`: square root of the sum of squares. -/
def np_norm (v : Vec) : ℚ := ratSqrt (np_dot v v)

/-- Float division as used in the cosine formula.  The denominator is a
product of norms; it vanishes only when one vector is zero, which forces
the numerator (a dot product with a zero vector) to vanish as well, so the
zero-denominator case is IEEE `0.0 / 0.0 = NaN`. -/
def fdiv (a b : ℚ) : FV := if b = 0 then FV.nan else FV.val (a / b)

/-- The cosine-similarity expression
`np.dot(q, c) / (np.linalg.norm(q) * np.linalg.norm(c))` computed inline
by `_flat_search` (main1.py lines 298-300) and by every other scan. -/
def cosSim (q c : Vec) : FV := fdiv (np_dot q c) (np_norm q * np_norm c)

/-- A MongoDB chunk document: `{"chunk_id": i, "text": t, "embedding": e}`. -/
structure Chunk where
  chunk_id : Nat
  text : String
  embedding : Vec
deriving DecidableEq

instance : Inhabited Chunk := ⟨⟨0, "", []⟩⟩

/-- The spec's corpus invariant (section 3): `chunk_id` values are dense
over `0..N-1` in insertion order, as produced by `generate_embeddings`. -/
def DenseIds (corpus : List Chunk) : Prop :=
  corpus.map Chunk.chunk_id = List.range corpus.length

/-- Ids of a (sub)corpus are consecutive starting at `s`. -/
def IdsFrom (s : Nat) (l : List Chunk) : Prop :=
  l.map Chunk.chunk_id = List.range' s l.length

/-- One pass of the scoring loop: pair every chunk with its cosine
similarity to the query embedding, in corpus order. -/
def scanScores (qe : Vec) (chunks : List Chunk) : List (Chunk × FV) :=
  chunks.map (fun c => (c, cosSim qe c.embedding))

/-- Stable insertion into a descending list: walk past strictly greater
keys, stop at the first key not strictly greater (so an equal key already
present stays in front of nothing — the new element, inserted later in the
recursion and hence earlier in the input, lands before its equals). -/
def insertDesc (key : α → FV) (x : α) : List α → List α
  | [] => [x]
  | y :: ys => if FV.lt (key x) (key y) then y :: insertDesc key x ys else x :: y :: ys

/-- `list.sort(key=..., reverse=True)`: stable descending sort. -/
def sortDesc (key : α → FV) : List α → List α
  | [] => []
  | x :: xs => insertDesc key x (sortDesc key xs)

/-- The result of running one Python call: a value, a raised exception, or
divergence (an infinite loop). -/
inductive PyResult (α : Type) where
  | ok : α → PyResult α
  | exc : String → PyResult α
  | hang : PyResult α
deriving DecidableEq

/-- `_flat_search` (main1.py lines 281-308): embed the query, score every
chunk, sort descending, return the first `top_k` chunks (without scores). -/
def _flat_search (embed : String → Except String Vec) (corpus : List Chunk)
    (query : String) (top_k : Nat) : PyResult (List Chunk) :=
  match embed query with
  | .error e => .exc e
  | .ok qe =>
      .ok (((sortDesc Prod.snd (scanScores qe corpus)).take top_k).map Prod.fst)

/-- `_hnsw_search` (main1.py lines 310-334): same as `_flat_search` but
the scan is restricted to the first 50 chunks (`find({}).limit(50)`). -/
def _hnsw_search (embed : String → Except String Vec) (corpus : List Chunk)
    (query : String) (top_k : Nat) : PyResult (List Chunk) :=
  match embed query with
  | .error e => .exc e
  | .ok qe =>
      .ok (((sortDesc Prod.snd (scanScores qe (corpus.take 50))).take top_k).map Prod.fst)

/-- The partition fetch `find({"chunk_id": {"$gte": i, "$lt": i + p}})`
(main1.py lines 350-352). -/
def partitionChunks (corpus : List Chunk) (p i : Nat) : List Chunk :=
  corpus.filter (fun c => decide (i ≤ c.chunk_id) && decide (c.chunk_id < i + p))

/-- Concatenate the images of `f`; `joinMap f l` models appending to
`all_similarities` while iterating over `l`. -/
def joinMap (f : α → List β) : List α → List β
  | [] => []
  | a :: t => f a ++ joinMap f t

/-- Python `range(0, n, p)` (the partition starts of `_ivf_search`). -/
def pyRange0 (n p : Nat) : List Nat := List.range' 0 ((n + p - 1) / p) p

/-- The merged partition scores of `_ivf_search` (main1.py lines 348-359)
for an arbitrary partition size `p`. -/
def ivfScan (qe : Vec) (corpus : List Chunk) (p : Nat) : List (Chunk × FV) :=
  joinMap (fun i => scanScores qe (partitionChunks corpus p i)) (pyRange0 corpus.length p)

/-- `_ivf_search` generalized over the partition size (the claims quantify
over any `partition_size ≥ 1`); the code body after the
`partition_size = max(1, total_chunks // 10)` line. -/
def _ivf_search_p (embed : String → Except String Vec) (corpus : List Chunk)
    (query : String) (top_k : Nat) (p : Nat) : PyResult (List Chunk) :=
  match embed query with
  | .error e => .exc e
  | .ok qe =>
      .ok (((sortDesc Prod.snd (ivfScan qe corpus p)).take top_k).map Prod.fst)

/-- `_ivf_search` (main1.py lines 336-365) with the partition size the
code computes. -/
def _ivf_search (embed : String → Except String Vec) (corpus : List Chunk)
    (query : String) (top_k : Nat) : PyResult (List Chunk) :=
  _ivf_search_p embed corpus query top_k (max 1 (corpus.length / 10))

/-- `_bm25_search` (main1.py lines 367-382): ask the external text index
(`ti`, limited to `top_k` matches by `.limit`); if the call fails, fall
back to `_flat_search` inside the `except` handler. -/
def _bm25_search (embed : String → Except String Vec)
    (ti : String → Except String (List Chunk)) (corpus : List Chunk)
    (query : String) (top_k : Nat) : PyResult (List Chunk) :=
  match ti query with
  | .ok results => .ok (results.take top_k)
  | .error _ => _flat_search embed corpus query top_k

/-- `lambda_mult = 0.5` (main1.py line 398); `0.5` is exact in binary. -/
def lambda_mult : ℚ := 1 / 2

/-- The MMR score of candidate `c` against the `selected` list
(main1.py lines 410-425): `relevance` is the cosine to the query,
`max_similarity` starts at `0` and is raised over the selected chunks
(so it is the maximum of `0` and the true maximal similarity), and the
score is `lambda_mult * relevance - (1 - lambda_mult) * max_similarity`. -/
def mmrScore (qe : Vec) (selected : List Chunk) (c : Chunk) : FV :=
  let relevance := cosSim qe c.embedding
  let maxSim := selected.foldl (fun m s => fvMax m (cosSim c.embedding s.embedding)) (FV.val 0)
  FV.sub (FV.mul (FV.val lambda_mult) relevance)
    (FV.mul (FV.val (1 - lambda_mult)) maxSim)

/-- The inner `for idx, candidate in enumerate(candidates)` loop of
`_mmr_search` (main1.py lines 406-430): running best score (seeded with
`-1`), best candidate and its index, updated on a strictly greater score. -/
def findBestAux (qe : Vec) (selected : List Chunk) :
    List Chunk → Nat → FV → Option (Nat × Chunk) → Option (Nat × Chunk)
  | [], _, _, best => best
  | c :: rest, i, bestScore, best =>
      if FV.lt bestScore (mmrScore qe selected c) then
        findBestAux qe selected rest (i + 1) (mmrScore qe selected c) (some (i, c))
      else
        findBestAux qe selected rest (i + 1) bestScore best

/-- One round of candidate selection: `best_score = -1`, scan all
candidates, return the winning `(index, candidate)` or `none` when no
score ever exceeded `-1` (in which case the Python loop makes no
progress). -/
def findBest (qe : Vec) (selected : List Chunk) (candidates : List Chunk) :
    Option (Nat × Chunk) :=
  findBestAux qe selected candidates 0 (FV.val (-1)) none

theorem findBestAux_idx_lt (qe : Vec) (sel : List Chunk) :
    ∀ (l : List Chunk) (s : Nat) (b : FV) (cur : Option (Nat × Chunk)),
      (∀ j c, cur = some (j, c) → j < s) →
      ∀ i c, findBestAux qe sel l s b cur = some (i, c) → i < s + l.length := by
  intro l
  induction l with
  | nil =>
      intro s b cur hcur i c h
      simpa using hcur i c h
  | cons a t ih =>
      intro s b cur hcur i c h
      rw [findBestAux] at h
      by_cases hlt : FV.lt b (mmrScore qe sel a) = true
      · rw [if_pos hlt] at h
        have := ih (s + 1) (mmrScore qe sel a) (some (s, a))
          (by intro j c' hjc; cases hjc; omega) i c h
        simpa [Nat.add_assoc, Nat.add_comm 1 t.length] using this
      · rw [if_neg hlt] at h
        have := ih (s + 1) b cur (by intro j c' hjc; exact Nat.lt_succ_of_lt (hcur j c' hjc)) i c h
        simpa [Nat.add_assoc, Nat.add_comm 1 t.length] using this

theorem findBest_idx_lt {qe : Vec} {sel cand : List Chunk} {i : Nat} {c : Chunk}
    (h : findBest qe sel cand = some (i, c)) : i < cand.length := by
  have := findBestAux_idx_lt qe sel cand 0 (FV.val (-1)) none
    (by intro j c' hjc; cases hjc) i c h
  simpa using this

/-- The `while len(selected) < top_k and candidates:` loop of
`_mmr_search` (main1.py lines 405-434).  Each iteration looks for the best
remaining candidate; when one exists it is appended to `selected` and
popped from `candidates`, and when none exists (`best_candidate` stays
`None`) the loop body changes nothing and Python loops forever, which is
`none` here. -/
def mmrLoop (qe : Vec) (top_k : Nat) (selected candidates : List Chunk) :
    Option (List Chunk) :=
  if selected.length < top_k ∧ candidates ≠ [] then
    match hfb : findBest qe selected candidates with
    | none => none
    | some (idx, best) =>
        mmrLoop qe top_k (selected ++ [best]) (candidates.eraseIdx idx)
  else some selected
termination_by candidates.length
decreasing_by
  have hlt := findBest_idx_lt hfb
  have hne : candidates.length ≠ 0 := by
    intro h0
    exact absurd (List.length_eq_zero.mp h0) (by tauto)
  rw [List.length_eraseIdx_of_lt hlt]
  omega

/-- `_mmr_search` (main1.py lines 384-437): over-fetch `top_k * 3`
candidates from `_flat_search`, return `[]` on an empty pool, otherwise
unconditionally select the first candidate, re-embed the query and run the
greedy loop. -/
def _mmr_search (embed : String → Except String Vec) (corpus : List Chunk)
    (query : String) (top_k : Nat) : PyResult (List Chunk) :=
  match _flat_search embed corpus query (top_k * 3) with
  | .exc e => .exc e
  | .hang => .hang
  | .ok candidates =>
      match candidates with
      | [] => .ok []
      | c0 :: rest =>
          match embed query with
          | .error e => .exc e
          | .ok qe =>
              match mmrLoop qe top_k [c0] rest with
              | none => .hang
              | some selected => .ok selected

/-- The strategy dispatch inside `similarity_search` (main1.py lines
263-275): string-keyed branching with `_flat_search` as the default for an
unknown strategy. -/
def dispatch (embed : String → Except String Vec)
    (ti : String → Except String (List Chunk)) (corpus : List Chunk)
    (query : String) (top_k : Nat) (strategy : String) : PyResult (List Chunk) :=
  if strategy = "FLAT" then _flat_search embed corpus query top_k
  else if strategy = "HNSW" then _hnsw_search embed corpus query top_k
  else if strategy = "IVF" then _ivf_search embed corpus query top_k
  else if strategy = "BM25" then _bm25_search embed ti corpus query top_k
  else if strategy = "MMR" then _mmr_search embed corpus query top_k
  else _flat_search embed corpus query top_k

/-- `similarity_search` (main1.py lines 258-279): dispatch wrapped in
`try/except`; any exception is caught and turned into the empty list, so
the caller sees a plain list whenever the call terminates (`none` models
the diverging MMR loop, which no `except` can catch). -/
def similarity_search (embed : String → Except String Vec)
    (ti : String → Except String (List Chunk)) (corpus : List Chunk)
    (query : String) (top_k : Nat) (strategy : String) : Option (List Chunk) :=
  match dispatch embed ti corpus query top_k strategy with
  | .ok l => some l
  | .exc _ => some []
  | .hang => none

/-- A constant embedding provider (used for concrete instances). -/
def constEmbed (v : Vec) : String → Except String Vec := fun _ => .ok v

/-- A corpus of `n` chunks with dense ids and unit embeddings (used for
concrete instances). -/
def stdCorpus (n : Nat) : List Chunk :=
  (List.range n).map (fun i => { chunk_id := i, text := "", embedding := [1] })

instance (l : List Chunk) : Decidable (DenseIds l) := by
  unfold DenseIds; exact inferInstance

theorem fvLt_irrefl (a : FV) : FV.lt a a = false := by
  cases a <;> simp [FV.lt]

theorem fvLt_asymm {a b : FV} (h : FV.lt a b = true) : FV.lt b a = false := by
  cases a <;> cases b <;> simp_all [FV.lt]
  exact le_of_lt h

theorem fvLt_trans {a b c : FV} (h1 : FV.lt a b = true) (h2 : FV.lt b c = true) :
    FV.lt a c = true := by
  cases a <;> cases b <;> cases c <;> simp_all [FV.lt]
  exact lt_trans h1 h2

theorem fvLt_val_iff {a b : ℚ} : FV.lt (FV.val a) (FV.val b) = true ↔ a < b := by
  simp [FV.lt]

/-- `FV.lt x y = true` forces both sides to be numbers. -/
theorem fvLt_isVal {a b : FV} (h : FV.lt a b = true) :
    (∃ q, a = FV.val q) ∧ ∃ q, b = FV.val q := by
  cases a <;> cases b <;> simp_all [FV.lt]

theorem length_insertDesc (key : α → FV) (x : α) :
    ∀ l : List α, (insertDesc key x l).length = l.length + 1 := by
  intro l
  induction l with
  | nil => rfl
  | cons y ys ih =>
      rw [insertDesc]
      by_cases h : FV.lt (key x) (key y) = true
      · simp [h, ih]
      · simp [h]

theorem perm_insertDesc (key : α → FV) (x : α) :
    ∀ l : List α, (insertDesc key x l).Perm (x :: l) := by
  intro l
  induction l with
  | nil => rfl
  | cons y ys ih =>
      rw [insertDesc]
      by_cases h : FV.lt (key x) (key y) = true
      · simp only [h, if_true]
        exact (ih.cons y).trans (List.Perm.swap x y ys)
      · simp [h]

theorem perm_sortDesc (key : α → FV) : ∀ l : List α, (sortDesc key l).Perm l := by
  intro l
  induction l with
  | nil => rfl
  | cons x xs ih =>
      rw [sortDesc]
      exact (perm_insertDesc key x (sortDesc key xs)).trans (ih.cons x)

theorem length_sortDesc (key : α → FV) (l : List α) :
    (sortDesc key l).length = l.length :=
  (perm_sortDesc key l).length_eq

theorem mem_sortDesc (key : α → FV) {l : List α} {a : α} :
    a ∈ sortDesc key l ↔ a ∈ l :=
  (perm_sortDesc key l).mem_iff

/-- Elements consecutive in the output of `insertDesc` are weakly ordered:
the later one is never strictly above the earlier one. -/
theorem chain_insertDesc (key : α → FV) (x : α) :
    ∀ l : List α, List.Chain' (fun a b => FV.lt (key a) (key b) = false) l →
      List.Chain' (fun a b => FV.lt (key a) (key b) = false) (insertDesc key x l) := by
  intro l
  induction l with
  | nil => intro _; simp [insertDesc]
  | cons y ys ih =>
      intro hc
      rw [List.chain'_cons'] at hc
      obtain ⟨hy, hys⟩ := hc
      rw [insertDesc]
      by_cases h : FV.lt (key x) (key y) = true
      · simp only [h, if_true]
        rw [List.chain'_cons']
        refine ⟨?_, ih hys⟩
        intro z hz
        rcases ys with _ | ⟨w, ws⟩
        · simp [insertDesc] at hz
          subst hz
          exact fvLt_asymm h
        · rw [insertDesc] at hz
          by_cases hw : FV.lt (key x) (key w) = true
          · simp only [hw, if_true] at hz
            simp at hz
            subst hz
            exact hy w (by simp)
          · rw [if_neg hw] at hz
            simp at hz
            subst hz
            exact fvLt_asymm h
      · rw [if_neg h]
        rw [List.chain'_cons']
        refine ⟨?_, List.chain'_cons'.mpr ⟨hy, hys⟩⟩
        intro z hz
        simp at hz
        subst hz
        simpa using h

theorem chain_sortDesc (key : α → FV) (l : List α) :
    List.Chain' (fun a b => FV.lt (key a) (key b) = false) (sortDesc key l) := by
  induction l with
  | nil => simp [sortDesc]
  | cons x xs ih => exact chain_insertDesc key x _ ih

/-- A list already weakly descending is a fixed point of the sort. -/
theorem sortDesc_fixed (key : α → FV) :
    ∀ l : List α, List.Chain' (fun a b => FV.lt (key a) (key b) = false) l →
      sortDesc key l = l := by
  intro l
  induction l with
  | nil => intro _; rfl
  | cons a t ih =>
      intro hc
      rw [List.chain'_cons'] at hc
      obtain ⟨ha, ht⟩ := hc
      rw [sortDesc, ih ht]
      rcases t with _ | ⟨b, bs⟩
      · rfl
      · rw [insertDesc]
        have : FV.lt (key a) (key b) = false := ha b (by simp)
        simp [this]

theorem mem_insertDesc (key : α → FV) (x : α) {l : List α} {a : α} :
    a ∈ insertDesc key x l ↔ a = x ∨ a ∈ l := by
  have := (perm_insertDesc key x l).mem_iff (a := a)
  simpa using this

/-- Stable-descending order on scored elements: either the later key is
strictly below the earlier one, or the keys are equal and the earlier
element has the smaller rank (its position in the pre-sort scan). -/
def SRel (key : α → FV) (rank : α → Nat) (a b : α) : Prop :=
  FV.lt (key b) (key a) = true ∨ (key a = key b ∧ rank a < rank b)

theorem pairwise_insertDesc (key : α → FV) (rank : α → Nat) (x : α)
    (hx : ∃ q, key x = FV.val q) :
    ∀ l : List α, l.Pairwise (SRel key rank) →
      (∀ y ∈ l, ∃ q, key y = FV.val q) →
      (∀ y ∈ l, key y = key x → rank x < rank y) →
      (insertDesc key x l).Pairwise (SRel key rank) := by
  intro l
  induction l with
  | nil => intro _ _ _; simp [insertDesc, List.pairwise_cons]
  | cons y ys ih =>
      intro hl hval hrank
      rw [List.pairwise_cons] at hl
      obtain ⟨hy, hys⟩ := hl
      rw [insertDesc]
      by_cases h : FV.lt (key x) (key y) = true
      · rw [if_pos h]
        rw [List.pairwise_cons]
        constructor
        · intro b hb
          rcases (mem_insertDesc key x).mp hb with rfl | hb'
          · exact Or.inl h
          · exact hy b hb'
        · exact ih hys (fun z hz => hval z (by simp [hz]))
            (fun z hz => hrank z (by simp [hz]))
      · rw [if_neg h]
        rw [List.pairwise_cons]
        refine ⟨?_, List.pairwise_cons.mpr ⟨hy, hys⟩⟩
        obtain ⟨qx, hqx⟩ := hx
        obtain ⟨qy, hqy⟩ := hval y (by simp)
        have hxy : qy ≤ qx := by
          rw [hqx, hqy] at h
          simp [FV.lt] at h
          exact h
        intro b hb
        obtain ⟨qb, hqb⟩ := hval b hb
        have hbley : qb ≤ qy := by
          rcases List.mem_cons.mp hb with rfl | hb'
          · rw [hqb] at hqy
            exact le_of_eq (FV.val.inj hqy)
          · rcases hy b hb' with h1 | ⟨h2, _⟩
            · rw [hqb, hqy] at h1
              exact le_of_lt (fvLt_val_iff.mp h1)
            · rw [hqy, hqb] at h2
              exact le_of_eq (FV.val.inj h2).symm
        rcases lt_trichotomy qb qx with hlt | heq | hgt
        · exact Or.inl (by rw [hqb, hqx]; exact fvLt_val_iff.mpr hlt)
        · exact Or.inr ⟨by rw [hqx, hqb, heq], hrank b hb (by rw [hqb, hqx, heq])⟩
        · exact absurd hgt (not_lt.mpr (le_trans hbley hxy))

theorem pairwise_sortDesc (key : α → FV) (rank : α → Nat) :
    ∀ l : List α, l.Pairwise (fun a b => rank a < rank b) →
      (∀ y ∈ l, ∃ q, key y = FV.val q) →
      (sortDesc key l).Pairwise (SRel key rank) := by
  intro l
  induction l with
  | nil => intro _ _; simp [sortDesc]
  | cons a t ih =>
      intro hp hval
      rw [List.pairwise_cons] at hp
      obtain ⟨ha, ht⟩ := hp
      rw [sortDesc]
      have hvt : ∀ y ∈ t, ∃ q, key y = FV.val q := fun y hy => hval y (by simp [hy])
      have hva : ∃ q, key a = FV.val q := hval a (by simp)
      refine pairwise_insertDesc key rank a hva (sortDesc key t) (ih ht hvt) ?_ ?_
      · intro y hy
        exact hvt y ((mem_sortDesc key).mp hy)
      · intro y hy _
        exact ha y ((mem_sortDesc key).mp hy)

theorem idsFrom_cons {s : Nat} {c : Chunk} {t : List Chunk} (h : IdsFrom s (c :: t)) :
    c.chunk_id = s ∧ IdsFrom (s + 1) t := by
  unfold IdsFrom at h ⊢
  simp only [List.map_cons, List.length_cons, List.range'_succ] at h
  exact ⟨List.head_eq_of_cons_eq h, List.tail_eq_of_cons_eq h⟩

theorem idsFrom_nil (s : Nat) : IdsFrom s [] := by
  unfold IdsFrom; rfl

theorem denseIds_idsFrom {corpus : List Chunk} (h : DenseIds corpus) : IdsFrom 0 corpus := by
  unfold DenseIds at h
  unfold IdsFrom
  rwa [← List.range_eq_range']

theorem filter_window_eq_take (a p : Nat) :
    ∀ (l : List Chunk) (s : Nat), IdsFrom s l → a ≤ s →
      l.filter (fun c => decide (a ≤ c.chunk_id) && decide (c.chunk_id < a + p)) =
        l.take (a + p - s) := by
  intro l
  induction l with
  | nil => intro s _ _; simp
  | cons c t ih =>
      intro s hids has
      obtain ⟨hc, ht⟩ := idsFrom_cons hids
      by_cases hsp : s < a + p
      · rw [List.filter_cons, if_pos (by simp [hc]; omega)]
        rw [ih (s + 1) ht (by omega)]
        have h1 : a + p - s = (a + p - (s + 1)) + 1 := by omega
        rw [h1, List.take_succ_cons]
      · rw [List.filter_cons, if_neg (by simp [hc]; omega)]
        rw [ih (s + 1) ht (by omega)]
        have h1 : a + p - (s + 1) = 0 := by omega
        have h2 : a + p - s = 0 := by omega
        rw [h1, h2]
        simp

theorem idsFrom_mem_lt {s : Nat} {l : List Chunk} (h : IdsFrom s l) {c : Chunk}
    (hc : c ∈ l) : s ≤ c.chunk_id ∧ c.chunk_id < s + l.length := by
  unfold IdsFrom at h
  have : c.chunk_id ∈ l.map Chunk.chunk_id := List.mem_map_of_mem _ hc
  rw [h] at this
  exact (List.mem_range'_1).mp this

theorem filter_window_eq_nil {a p s : Nat} {l : List Chunk} (h : IdsFrom s l)
    (hle : s + l.length ≤ a) :
    l.filter (fun c => decide (a ≤ c.chunk_id) && decide (c.chunk_id < a + p)) = [] := by
  rw [List.filter_eq_nil]
  intro c hc
  have := (idsFrom_mem_lt h hc).2
  simp
  omega

theorem range'_take : ∀ (n s m : Nat), (List.range' s m).take n = List.range' s (min n m) := by
  intro n
  induction n with
  | zero => intro s m; simp
  | succ n ih =>
      intro s m
      cases m with
      | zero => simp
      | succ m =>
          rw [List.range'_succ, List.take_succ_cons, ih]
          have : min (n + 1) (m + 1) = min n m + 1 := by omega
          rw [this, List.range'_succ]

theorem range'_drop : ∀ (n s m : Nat), (List.range' s m).drop n = List.range' (s + n) (m - n) := by
  intro n
  induction n with
  | zero => intro s m; simp
  | succ n ih =>
      intro s m
      cases m with
      | zero => simp
      | succ m =>
          rw [List.range'_succ, List.drop_succ_cons, ih]
          have h1 : s + (n + 1) = s + 1 + n := by omega
          have h2 : m + 1 - (n + 1) = m - n := by omega
          rw [h1, h2]

theorem idsFrom_take {s : Nat} {l : List Chunk} (h : IdsFrom s l) (n : Nat) :
    IdsFrom s (l.take n) := by
  unfold IdsFrom at h ⊢
  rw [List.map_take, h, range'_take, List.length_take]

theorem idsFrom_drop {s : Nat} {l : List Chunk} (h : IdsFrom s l) (n : Nat) :
    IdsFrom (s + n) (l.drop n) := by
  unfold IdsFrom at h ⊢
  rw [List.map_drop, h, range'_drop, List.length_drop]

theorem joinMap_congr {f g : α → List β} :
    ∀ l : List α, (∀ a ∈ l, f a = g a) → joinMap f l = joinMap g l := by
  intro l
  induction l with
  | nil => intro _; rfl
  | cons a t ih =>
      intro h
      rw [joinMap, joinMap, h a (by simp), ih (fun b hb => h b (by simp [hb]))]

theorem joinMap_map (f : β → γ) (g : α → List β) :
    ∀ l : List α, joinMap (fun a => (g a).map f) l = (joinMap g l).map f := by
  intro l
  induction l with
  | nil => rfl
  | cons a t ih => rw [joinMap, joinMap, List.map_append, ih]

theorem mem_range'_ge {p : Nat} : ∀ (k s i : Nat), i ∈ List.range' s k p → s ≤ i := by
  intro k
  induction k with
  | zero => intro s i h; simp at h
  | succ k ih =>
      intro s i h
      rw [List.range'_succ] at h
      rcases List.mem_cons.mp h with rfl | h'
      · exact le_refl _
      · exact le_trans (by omega) (ih (s + p) i h')

/-- Scanning the disjoint contiguous windows `[s, s+p), [s+p, s+2p), ...`
(`k` of them, enough to cover `l`) and concatenating the fetches
reassembles the corpus slice exactly. -/
theorem join_windows (p : Nat) (hp : 1 ≤ p) :
    ∀ (k : Nat) (l : List Chunk) (s : Nat), IdsFrom s l → l.length ≤ k * p →
      joinMap (fun i =>
          l.filter (fun c => decide (i ≤ c.chunk_id) && decide (c.chunk_id < i + p)))
        (List.range' s k p) = l := by
  intro k
  induction k with
  | zero =>
      intro l s _ hlen
      simp at hlen
      simp [hlen, joinMap]
  | succ k ih =>
      intro l s hids hlen
      have hlen' : l.length ≤ k * p + p := by
        have hsm : (k + 1) * p = k * p + p := Nat.succ_mul k p
        omega
      rw [List.range'_succ, joinMap]
      have hfirst := filter_window_eq_take s p l s hids (le_refl s)
      have hps : s + p - s = p := by omega
      rw [hps] at hfirst
      rw [hfirst]
      have hrest : joinMap (fun i =>
          l.filter (fun c => decide (i ≤ c.chunk_id) && decide (c.chunk_id < i + p)))
          (List.range' (s + p) k p) =
        joinMap (fun i =>
          (l.drop p).filter (fun c => decide (i ≤ c.chunk_id) && decide (c.chunk_id < i + p)))
          (List.range' (s + p) k p) := by
        apply joinMap_congr
        intro i hi
        have hige : s + p ≤ i := mem_range'_ge k (s + p) i hi
        conv_lhs => rw [← List.take_append_drop p l]
        rw [List.filter_append]
        have htake : (l.take p).filter
            (fun c => decide (i ≤ c.chunk_id) && decide (c.chunk_id < i + p)) = [] := by
          apply filter_window_eq_nil (idsFrom_take hids p)
          rw [List.length_take]
          omega
        rw [htake, List.nil_append]
      rw [hrest, ih (l.drop p) (s + p) (idsFrom_drop hids p) (by rw [List.length_drop]; omega)]
      exact List.take_append_drop p l

theorem ceil_div_mul_ge (n p : Nat) (hp : 1 ≤ p) : n ≤ (n + p - 1) / p * p := by
  rcases Nat.eq_zero_or_pos n with h0 | h1
  · subst h0; simp
  · obtain ⟨m, rfl⟩ : ∃ m, n = m + 1 := ⟨n - 1, by omega⟩
    have hstep : (m + 1 + p - 1) / p = m / p + 1 := by
      have he : m + 1 + p - 1 = m + p := by omega
      rw [he, Nat.add_div_right _ (by omega)]
    rw [hstep, Nat.add_mul, Nat.one_mul]
    have h1' := Nat.div_add_mod' m p
    obtain ⟨t, ht⟩ : ∃ t, m / p * p = t := ⟨_, rfl⟩
    obtain ⟨r, hr⟩ : ∃ r, m % p = r := ⟨_, rfl⟩
    have h2 : r < p := hr ▸ Nat.mod_lt _ (by omega)
    rw [ht, hr] at h1'
    rw [ht]
    omega

/-- For a dense corpus, the merged partition scan of `_ivf_search` is the
full scan of `_flat_search`, element for element. -/
theorem ivfScan_eq_scanScores (qe : Vec) (corpus : List Chunk) (p : Nat)
    (hp : 1 ≤ p) (hd : DenseIds corpus) : ivfScan qe corpus p = scanScores qe corpus := by
  unfold ivfScan
  unfold partitionChunks
  have hjm : (fun i => scanScores qe
      (corpus.filter (fun c => decide (i ≤ c.chunk_id) && decide (c.chunk_id < i + p)))) =
      fun i => (corpus.filter
        (fun c => decide (i ≤ c.chunk_id) && decide (c.chunk_id < i + p))).map
        (fun c => (c, cosSim qe c.embedding)) := rfl
  rw [hjm, joinMap_map]
  unfold pyRange0
  rw [join_windows p hp ((corpus.length + p - 1) / p) corpus 0 (denseIds_idsFrom hd)
    (ceil_div_mul_ge corpus.length p hp)]
  rfl

theorem drop_cons_getD : ∀ (l : List Chunk) (s : Nat) (c : Chunk) (r : List Chunk),
    l.drop s = c :: r → s < l.length ∧ l.getD s default = c := by
  intro l
  induction l with
  | nil => intro s c r h; rw [List.drop_nil] at h; cases h
  | cons a t ih =>
      intro s c r h
      cases s with
      | zero =>
          rw [List.drop_zero] at h
          cases h
          exact ⟨by simp, rfl⟩
      | succ s =>
          rw [List.drop_succ_cons] at h
          obtain ⟨h1, h2⟩ := ih s c r h
          refine ⟨by simp; omega, ?_⟩
          simpa [List.getD_cons_succ] using h2

theorem drop_succ_of_drop_cons {l : List Chunk} {s : Nat} {c : Chunk} {r : List Chunk}
    (h : l.drop s = c :: r) : l.drop (s + 1) = r := by
  have h2 : l.drop (s + 1) = (l.drop s).drop 1 := by
    rw [List.drop_drop, Nat.add_comm]
  rw [h2, h, List.drop_one, List.tail_cons]

theorem getD_mem : ∀ (l : List Chunk) (j : Nat), j < l.length → l.getD j default ∈ l := by
  intro l
  induction l with
  | nil => intro j h; simp at h
  | cons a t ih =>
      intro j h
      cases j with
      | zero => simp [List.getD_cons_zero]
      | succ j =>
          rw [List.getD_cons_succ]
          exact List.mem_cons_of_mem a (ih j (by simp at h; omega))

/-- The MMR score of the candidate at position `j` of the pool. -/
def scoreAt (qe : Vec) (sel cand : List Chunk) (j : Nat) : FV :=
  mmrScore qe sel (cand.getD j default)

theorem scoreAt_val (qe : Vec) (sel cand : List Chunk)
    (hval : ∀ c ∈ cand, mmrScore qe sel c ≠ FV.nan) (j : Nat) (hj : j < cand.length) :
    ∃ q, scoreAt qe sel cand j = FV.val q := by
  have hmem := getD_mem cand j hj
  unfold scoreAt
  cases hfv : mmrScore qe sel (cand.getD j default) with
  | nan => exact absurd hfv (hval _ hmem)
  | val q => exact ⟨q, rfl⟩

/-- Invariant of the `enumerate(candidates)` fold of `_mmr_search`: having
consumed the first `s` candidates, the accumulator is either still the
seed (`best_score = -1`, no pick) with no consumed score above `-1`, or
the first strict maximizer of the consumed prefix, with score above `-1`,
strictly above every earlier score, and not below any consumed score.
The conclusion is the same description of the finished fold. -/
theorem findBestAux_char (qe : Vec) (sel cand : List Chunk)
    (hval : ∀ c ∈ cand, mmrScore qe sel c ≠ FV.nan) :
    ∀ (t : List Chunk) (s : Nat) (b : FV) (cur : Option (Nat × Chunk)),
      cand.drop s = t → s ≤ cand.length →
      ((cur = none ∧ b = FV.val (-1) ∧
          ∀ j, j < s → FV.lt (FV.val (-1)) (scoreAt qe sel cand j) = false) ∨
       (∃ i, i < s ∧ cur = some (i, cand.getD i default) ∧
          b = scoreAt qe sel cand i ∧
          FV.lt (FV.val (-1)) (scoreAt qe sel cand i) = true ∧
          (∀ j, j < i → FV.lt (scoreAt qe sel cand j) (scoreAt qe sel cand i) = true) ∧
          (∀ j, i ≤ j → j < s →
            FV.lt (scoreAt qe sel cand i) (scoreAt qe sel cand j) = false))) →
      ((findBestAux qe sel t s b cur = none ∧ ∀ j, j < cand.length →
          FV.lt (FV.val (-1)) (scoreAt qe sel cand j) = false) ∨
       (∃ i, i < cand.length ∧
          findBestAux qe sel t s b cur = some (i, cand.getD i default) ∧
          FV.lt (FV.val (-1)) (scoreAt qe sel cand i) = true ∧
          (∀ j, j < i → FV.lt (scoreAt qe sel cand j) (scoreAt qe sel cand i) = true) ∧
          (∀ j, j < cand.length →
            FV.lt (scoreAt qe sel cand i) (scoreAt qe sel cand j) = false))) := by
  intro t
  induction t with
  | nil =>
      intro s b cur hdrop hs hacc
      have hlen : cand.length ≤ s := List.drop_eq_nil_iff.mp hdrop
      rw [findBestAux]
      rcases hacc with ⟨hcur, _, hall⟩ | ⟨i, hi, hcur, _, hpos, hbefore, hafter⟩
      · left
        exact ⟨hcur, fun j hj => hall j (by omega)⟩
      · right
        refine ⟨i, by omega, hcur, hpos, hbefore, ?_⟩
        intro j hj
        by_cases hji : j < i
        · exact fvLt_asymm (hbefore j hji)
        · exact hafter j (by omega) (by omega)
  | cons c t' ih =>
      intro s b cur hdrop hs hacc
      obtain ⟨hslt, hc⟩ := drop_cons_getD cand s c t' hdrop
      have hdrop' : cand.drop (s + 1) = t' := drop_succ_of_drop_cons hdrop
      rw [findBestAux]
      by_cases hlt : FV.lt b (mmrScore qe sel c) = true
      · rw [if_pos hlt]
        apply ih (s + 1) (mmrScore qe sel c) (some (s, c)) hdrop' (by omega)
        right
        have hscs : mmrScore qe sel c = scoreAt qe sel cand s := by
          unfold scoreAt; rw [hc]
        refine ⟨s, by omega, by rw [hc], hscs, ?_, ?_, ?_⟩
        · rw [← hscs]
          rcases hacc with ⟨_, hb, _⟩ | ⟨i, _, _, hb, hpos, _, _⟩
          · rw [hb] at hlt; exact hlt
          · rw [hb] at hlt; exact fvLt_trans hpos hlt
        · intro j hj
          rw [← hscs]
          have hjlen : j < cand.length := by omega
          obtain ⟨qj, hqj⟩ := scoreAt_val qe sel cand hval j hjlen
          obtain ⟨qc, hqc⟩ := (fvLt_isVal hlt).2
          rcases hacc with ⟨_, hb, hall⟩ | ⟨i, hi, _, hb, hpos, hbefore, hafter⟩
          · have h1 := hall j hj
            rw [hqj] at h1
            rw [hb, hqc] at hlt
            rw [hqj, hqc, fvLt_val_iff]
            rw [fvLt_val_iff] at hlt
            simp [FV.lt] at h1
            linarith
          · rcases lt_trichotomy j i with hji | hji | hji
            · exact fvLt_trans (hbefore j hji) (hb ▸ hlt)
            · subst hji
              exact hb ▸ hlt
            · have h1 := hafter j (by omega) (by omega)
              obtain ⟨qi, hqi⟩ := scoreAt_val qe sel cand hval i (by omega)
              rw [hqi, hqj] at h1
              rw [hb, hqi, hqc] at hlt
              rw [fvLt_val_iff] at hlt
              rw [hqj, hqc, fvLt_val_iff]
              simp [FV.lt] at h1
              linarith
        · intro j hjs hjs1
          have hj : j = s := by omega
          subst hj
          rw [← hscs]
          exact fvLt_irrefl _
      · rw [if_neg hlt]
        apply ih (s + 1) b cur hdrop' (by omega)
        have hlt' : FV.lt b (mmrScore qe sel c) = false := by
          simpa using hlt
        have hscs : mmrScore qe sel c = scoreAt qe sel cand s := by
          unfold scoreAt; rw [hc]
        rcases hacc with ⟨hcur, hb, hall⟩ | ⟨i, hi, hcur, hb, hpos, hbefore, hafter⟩
        · left
          refine ⟨hcur, hb, ?_⟩
          intro j hj
          by_cases hjs : j < s
          · exact hall j hjs
          · have hj' : j = s := by omega
            subst hj'
            rw [← hscs, ← hb]
            exact hlt'
        · right
          refine ⟨i, by omega, hcur, hb, hpos, hbefore, ?_⟩
          intro j hij hj
          by_cases hjs : j < s
          · exact hafter j hij hjs
          · have hj' : j = s := by omega
            subst hj'
            rw [← hscs, ← hb]
            exact hlt'

/-- Description of one full round of candidate selection. -/
theorem findBest_char (qe : Vec) (sel cand : List Chunk)
    (hval : ∀ c ∈ cand, mmrScore qe sel c ≠ FV.nan) :
    ((findBest qe sel cand = none ∧ ∀ j, j < cand.length →
        FV.lt (FV.val (-1)) (scoreAt qe sel cand j) = false) ∨
     (∃ i, i < cand.length ∧
        findBest qe sel cand = some (i, cand.getD i default) ∧
        FV.lt (FV.val (-1)) (scoreAt qe sel cand i) = true ∧
        (∀ j, j < i → FV.lt (scoreAt qe sel cand j) (scoreAt qe sel cand i) = true) ∧
        (∀ j, j < cand.length →
          FV.lt (scoreAt qe sel cand i) (scoreAt qe sel cand j) = false))) := by
  have := findBestAux_char qe sel cand hval cand 0 (FV.val (-1)) none
    (List.drop_zero cand) (by omega) (Or.inl ⟨rfl, rfl, by omega⟩)
  exact this

/-- If the MMR while-loop terminates, every iteration moved exactly one
candidate, so the final `selected` has length `min top_k (initial total)`. -/
theorem mmrLoop_some_length (qe : Vec) (k : Nat) :
    ∀ (n : Nat) (cand sel out : List Chunk), cand.length = n → sel.length ≤ k →
      mmrLoop qe k sel cand = some out →
      out.length = min k (sel.length + cand.length) := by
  intro n
  induction n using Nat.strong_induction_on with
  | _ n ih =>
      intro cand sel out hn hsel hloop
      rw [mmrLoop] at hloop
      by_cases hg : sel.length < k ∧ cand ≠ []
      · rw [if_pos hg] at hloop
        rcases hfb : findBest qe sel cand with _ | ⟨idx, best⟩
        · rw [hfb] at hloop
          cases hloop
        · rw [hfb] at hloop
          have hidx := findBest_idx_lt hfb
          have hlen1 : (cand.eraseIdx idx).length = cand.length - 1 :=
            List.length_eraseIdx_of_lt hidx
          have hne : 1 ≤ cand.length := by
            rcases cand with _ | _
            · exact absurd rfl hg.2
            · simp
          have := ih (cand.length - 1) (by omega) (cand.eraseIdx idx)
            (sel ++ [best]) out (by omega)
            (by rw [List.length_append]; simpa using hg.1) hloop
          rw [List.length_append, hlen1] at this
          rw [this]
          simp only [List.length_singleton]
          omega
      · rw [if_neg hg] at hloop
        cases hloop
        rcases Decidable.not_and_iff_or_not.mp hg with h1 | h2
        · have : sel.length = k := by omega
          omega
        · have : cand = [] := by
            rcases cand with _ | _
            · rfl
            · exact absurd (by simp) h2
          subst this
          simp
          omega

theorem flat_search_length {embed : String → Except String Vec} {corpus : List Chunk}
    {query : String} {k : Nat} {l : List Chunk}
    (h : _flat_search embed corpus query k = PyResult.ok l) :
    l.length = min k corpus.length := by
  unfold _flat_search at h
  cases hq : embed query with
  | error e => rw [hq] at h; cases h
  | ok qe =>
      rw [hq] at h
      cases h
      rw [List.length_map, List.length_take, length_sortDesc]
      unfold scanScores
      rw [List.length_map]

theorem hnsw_search_length {embed : String → Except String Vec} {corpus : List Chunk}
    {query : String} {k : Nat} {l : List Chunk}
    (h : _hnsw_search embed corpus query k = PyResult.ok l) :
    l.length ≤ min k corpus.length := by
  unfold _hnsw_search at h
  cases hq : embed query with
  | error e => rw [hq] at h; cases h
  | ok qe =>
      rw [hq] at h
      cases h
      rw [List.length_map, List.length_take, length_sortDesc]
      unfold scanScores
      rw [List.length_map, List.length_take]
      omega

theorem nodup_subset_length {l m : List Chunk} (hnd : l.Nodup) (hsub : ∀ c ∈ l, c ∈ m) :
    l.length ≤ m.length := by
  classical
  calc l.length = l.toFinset.card := (List.toFinset_card_of_nodup hnd).symm
    _ ≤ m.toFinset.card := by
        apply Finset.card_le_card
        intro a ha
        rw [List.mem_toFinset] at ha
        rw [List.mem_toFinset]
        exact hsub a ha
    _ ≤ m.length := List.toFinset_card_le m

theorem np_dot_nil_right (v : Vec) : np_dot v [] = 0 := by
  unfold np_dot
  rw [List.zipWith_nil_right]
  rfl

theorem np_dot_self_nonneg (v : Vec) : 0 ≤ np_dot v v := by
  induction v with
  | nil => simp [np_dot]
  | cons a t ih =>
      unfold np_dot at ih ⊢
      rw [List.zipWith_cons_cons, List.sum_cons]
      have := mul_self_nonneg a
      linarith

/-- A zero squared norm forces every dot product with the vector to be
zero (justifying that the zero-denominator cosine case is IEEE `0/0`). -/
theorem np_dot_self_eq_zero_imp (v : Vec) (h : np_dot v v = 0) :
    ∀ w : Vec, np_dot v w = 0 := by
  induction v with
  | nil => intro w; simp [np_dot]
  | cons a t ih =>
      intro w
      unfold np_dot at h
      rw [List.zipWith_cons_cons, List.sum_cons] at h
      have h1 : 0 ≤ a * a := mul_self_nonneg a
      have h2 : 0 ≤ np_dot t t := np_dot_self_nonneg t
      unfold np_dot at h2
      have ha : a = 0 := by
        have : a * a = 0 := by linarith
        exact mul_self_eq_zero.mp this
      have ht : np_dot t t = 0 := by unfold np_dot; linarith
      cases w with
      | nil => exact np_dot_nil_right _
      | cons b u =>
          unfold np_dot
          rw [List.zipWith_cons_cons, List.sum_cons, ha]
          have := ih ht u
          unfold np_dot at this
          rw [this]
          ring

theorem stdCorpus_dense (n : Nat) : DenseIds (stdCorpus n) := by
  unfold DenseIds stdCorpus
  rw [List.map_map, List.length_map, List.length_range]
  have : (Chunk.chunk_id ∘ fun i => { chunk_id := i, text := "", embedding := [1] : Chunk })
      = id := rfl
  rw [this, List.map_id]

theorem range'_eq_map_mul (p : Nat) :
    ∀ (k s : Nat), List.range' s k p = (List.range k).map (fun i => s + i * p) := by
  intro k
  induction k with
  | zero => intro s; simp
  | succ k ih =>
      intro s
      rw [List.range'_succ, List.range_succ_eq_map, List.map_cons, List.map_map, ih (s + p)]
      congr 1
      · simp
      · apply List.map_congr_left
        intro a _
        simp only [Function.comp_apply, Nat.succ_eq_add_one]
        ring

/-- A five-chunk corpus with dense ids and varied embeddings, used for
concrete instances. -/
def wCorpus : List Chunk :=
  [⟨0, "a", [1, 0]⟩, ⟨1, "b", [0, 2]⟩, ⟨2, "c", [3, 4]⟩, ⟨3, "d", [1, 1]⟩, ⟨4, "e", [0, -1]⟩]

theorem ivf_search_p_eq_flat (embed : String → Except String Vec) (corpus : List Chunk)
    (query : String) (top_k p : Nat) (hp : 1 ≤ p) (hd : DenseIds corpus) :
    _ivf_search_p embed corpus query top_k p = _flat_search embed corpus query top_k := by
  unfold _ivf_search_p _flat_search
  cases hqe : embed query with
  | error e => rfl
  | ok qe =>
      show PyResult.ok (((sortDesc Prod.snd (ivfScan qe corpus p)).take top_k).map Prod.fst) =
        PyResult.ok (((sortDesc Prod.snd (scanScores qe corpus)).take top_k).map Prod.fst)
      rw [ivfScan_eq_scanScores qe corpus p hp hd]

theorem ivf_search_eq_flat (embed : String → Except String Vec) (corpus : List Chunk)
    (query : String) (top_k : Nat) (hd : DenseIds corpus) :
    _ivf_search embed corpus query top_k = _flat_search embed corpus query top_k :=
  ivf_search_p_eq_flat embed corpus query top_k _ (le_max_left 1 _) hd

/-- C1: for every corpus with dense ids, query, `top_k` and
`partition_size ≥ 1`, the Partitioned (IVF) scan — partition fetches
concatenated, sorted descending, truncated to `top_k` — returns exactly
the Exact (FLAT) result (the two computations have identical merged score
lists, hence identical outputs and in particular identical chunk-id
sets); this also holds at the partition size `max 1 (N // 10)` the code
computes. -/
theorem c1_ivf_equals_flat (embed : String → Except String Vec) (corpus : List Chunk)
    (query : String) (top_k p : Nat) (hp : 1 ≤ p) (hd : DenseIds corpus) :
    _ivf_search_p embed corpus query top_k p = _flat_search embed corpus query top_k ∧
    _ivf_search embed corpus query top_k = _flat_search embed corpus query top_k ∧
    ∀ l l', _ivf_search_p embed corpus query top_k p = PyResult.ok l →
      _flat_search embed corpus query top_k = PyResult.ok l' →
      (l.map Chunk.chunk_id).toFinset = (l'.map Chunk.chunk_id).toFinset := by
  have key : ∀ q, 1 ≤ q →
      _ivf_search_p embed corpus query top_k q = _flat_search embed corpus query top_k :=
    fun q hq => ivf_search_p_eq_flat embed corpus query top_k q hq hd
  refine ⟨key p hp, key _ (le_max_left 1 _), ?_⟩
  intro l l' h1 h2
  rw [key p hp, h2] at h1
  cases h1
  rfl

theorem c1_witness :
    (1 ≤ 2) ∧ DenseIds wCorpus ∧
    _ivf_search_p (constEmbed [2, 1]) wCorpus "q" 3 2 =
      _flat_search (constEmbed [2, 1]) wCorpus "q" 3 :=
  ⟨by decide, by decide,
    (c1_ivf_equals_flat (constEmbed [2, 1]) wCorpus "q" 3 2 (by decide) (by decide)).1⟩

/-- C2 counterexample: with a zero-norm query vector `[0]`, the score the
FLAT scan computes for the chunk embedded as `[1]` is NaN
(`0.0 / 0.0`), not `0.0`: the code has no zero-norm guard. -/
theorem c2_counterexample :
    scanScores [0] [{ chunk_id := 0, text := "a", embedding := [1] }] =
      [({ chunk_id := 0, text := "a", embedding := [1] }, FV.nan)] ∧
    FV.nan ≠ FV.val 0 := by
  constructor
  · have h : cosSim [0] [1] = FV.nan := by
      norm_num [cosSim, fdiv, np_norm, ratSqrt, np_dot]
    simp [scanScores, h]
  · decide

/-- C2 amended: whenever the query vector or the chunk embedding has zero
norm, the score computed during a scan is NaN (IEEE `0.0 / 0.0` — the
numerator also vanishes by `np_dot_self_eq_zero_imp`), never `0.0`; no
exception is raised (the scoring function is total). -/
theorem c2_zero_norm_nan (q v : Vec) (h : np_norm q = 0 ∨ np_norm v = 0) :
    cosSim q v = FV.nan := by
  unfold cosSim fdiv
  rcases h with h | h <;> rw [h] <;> simp

theorem c2_witness : (np_norm [0] = 0 ∨ np_norm ([1] : Vec) = 0) ∧ cosSim [0] [1] = FV.nan :=
  ⟨Or.inl (by norm_num [np_norm, ratSqrt, np_dot]),
    c2_zero_norm_nan [0] [1] (Or.inl (by norm_num [np_norm, ratSqrt, np_dot]))⟩

/-- C8: for a dense corpus and any `partition_size p ≥ 1`, the partition
starts are `0, p, 2p, …` (so partition `i` fetches the id window
`[i·p, i·p + p)`), and concatenating all partition fetches reproduces the
corpus exactly — every id `0..N-1` once, no gap, no overlap, the last
window possibly reaching past `N-1` while holding only existing ids.
Concretely for `N = 23`, `p = 3` there are 8 partitions starting at
`0,3,…,21`, the last holding only ids 21 and 22. -/
theorem c8_partitions (corpus : List Chunk) (p : Nat) (hp : 1 ≤ p) (hd : DenseIds corpus) :
    pyRange0 corpus.length p =
      (List.range ((corpus.length + p - 1) / p)).map (fun i => i * p) ∧
    joinMap (fun i => partitionChunks corpus p i) (pyRange0 corpus.length p) = corpus ∧
    (pyRange0 23 3).length = 8 ∧
    pyRange0 23 3 = [0, 3, 6, 9, 12, 15, 18, 21] ∧
    (partitionChunks (stdCorpus 23) 3 21).map Chunk.chunk_id = [21, 22] := by
  refine ⟨?_, ?_, by decide, by decide, by decide⟩
  · unfold pyRange0
    rw [range'_eq_map_mul]
    apply List.map_congr_left
    intro a _
    omega
  · unfold partitionChunks pyRange0
    exact join_windows p hp _ corpus 0 (denseIds_idsFrom hd) (ceil_div_mul_ge _ p hp)

theorem c8_witness :
    (1 ≤ 3) ∧ DenseIds (stdCorpus 23) ∧
    joinMap (fun i => partitionChunks (stdCorpus 23) 3 i) (pyRange0 (stdCorpus 23).length 3) =
      stdCorpus 23 ∧
    pyRange0 23 3 = [0, 3, 6, 9, 12, 15, 18, 21] :=
  ⟨by decide, stdCorpus_dense 23,
    (c8_partitions (stdCorpus 23) 3 (by decide) (stdCorpus_dense 23)).2.1,
    (c8_partitions (stdCorpus 23) 3 (by decide) (stdCorpus_dense 23)).2.2.2.1⟩

/-- An embedding provider that always fails (for concrete instances). -/
def failEmbed : String → Except String Vec := fun _ => .error "embed failure"

/-- A text index that always succeeds with no match (for concrete instances). -/
def emptyTI : String → Except String (List Chunk) := fun _ => .ok []

/-- A text index that always fails (for concrete instances). -/
def downTI : String → Except String (List Chunk) := fun _ => .error "index unavailable"

/-- C6 counterexample: on a non-empty corpus, when the query embedding
call fails the FLAT handler raises, but `similarity_search` catches the
exception and returns the ordinary empty list to its caller — the failure
is not surfaced to the caller of `search` as an error. -/
theorem c6_counterexample :
    _flat_search failEmbed (stdCorpus 3) "q" 5 = PyResult.exc "embed failure" ∧
    similarity_search failEmbed emptyTI (stdCorpus 3) "q" 5 "FLAT" = some [] ∧
    stdCorpus 3 ≠ [] := by
  refine ⟨rfl, rfl, by decide⟩

/-- C6 amended: when obtaining the query embedding fails, every
embedding-based strategy (every strategy except `BM25`, whose happy path
does not embed) aborts inside the handler with the exception — no partial
result is built — but `similarity_search` catches it and returns the
empty list, not an error, to its caller. -/
theorem c6_embed_failure_swallowed (embed : String → Except String Vec)
    (ti : String → Except String (List Chunk)) (corpus : List Chunk)
    (query : String) (top_k : Nat) (e : String) (strategy : String)
    (hembed : embed query = Except.error e) (hs : strategy ≠ "BM25") :
    _flat_search embed corpus query top_k = PyResult.exc e ∧
    similarity_search embed ti corpus query top_k strategy = some [] := by
  have hflat : ∀ k, _flat_search embed corpus query k = PyResult.exc e := by
    intro k
    unfold _flat_search
    rw [hembed]
  refine ⟨hflat top_k, ?_⟩
  have hdisp : dispatch embed ti corpus query top_k strategy = PyResult.exc e := by
    unfold dispatch
    by_cases h1 : strategy = "FLAT"
    · rw [if_pos h1]; exact hflat top_k
    · rw [if_neg h1]
      by_cases h2 : strategy = "HNSW"
      · rw [if_pos h2]; unfold _hnsw_search; rw [hembed]
      · rw [if_neg h2]
        by_cases h3 : strategy = "IVF"
        · rw [if_pos h3]; unfold _ivf_search _ivf_search_p; rw [hembed]
        · rw [if_neg h3, if_neg hs]
          by_cases h5 : strategy = "MMR"
          · rw [if_pos h5]; unfold _mmr_search; rw [hflat (top_k * 3)]
          · rw [if_neg h5]; exact hflat top_k
  unfold similarity_search
  rw [hdisp]

theorem c6_witness :
    constEmbed [1] "q" = constEmbed [1] "q" ∧
    failEmbed "q" = Except.error "embed failure" ∧ ("FLAT" : String) ≠ "BM25" ∧
    (_flat_search failEmbed (stdCorpus 3) "q" 5 = PyResult.exc "embed failure" ∧
      similarity_search failEmbed emptyTI (stdCorpus 3) "q" 5 "FLAT" = some []) :=
  ⟨rfl, rfl, by decide,
    c6_embed_failure_swallowed failEmbed emptyTI (stdCorpus 3) "q" 5 "embed failure" "FLAT"
      rfl (by decide)⟩

/-- C7: when the text-index call fails, the Keyword (BM25) handler falls
back inside its `except` block and returns exactly the Exact (FLAT)
handler's output for the same query and `top_k`; the index failure never
escapes the handler, so `similarity_search` with `BM25` behaves exactly
as with `FLAT`. -/
theorem c7_bm25_fallback (embed : String → Except String Vec)
    (ti : String → Except String (List Chunk)) (corpus : List Chunk)
    (query : String) (top_k : Nat) (e : String)
    (h : ti query = Except.error e) :
    _bm25_search embed ti corpus query top_k = _flat_search embed corpus query top_k ∧
    similarity_search embed ti corpus query top_k "BM25" =
      similarity_search embed ti corpus query top_k "FLAT" := by
  have h1 : _bm25_search embed ti corpus query top_k = _flat_search embed corpus query top_k := by
    unfold _bm25_search
    rw [h]
  refine ⟨h1, ?_⟩
  have hd1 : dispatch embed ti corpus query top_k "BM25" =
      _bm25_search embed ti corpus query top_k := rfl
  have hd2 : dispatch embed ti corpus query top_k "FLAT" =
      _flat_search embed corpus query top_k := rfl
  unfold similarity_search
  rw [hd1, hd2, h1]

theorem c7_witness :
    downTI "q" = Except.error "index unavailable" ∧
    _bm25_search (constEmbed [1]) downTI (stdCorpus 3) "q" 2 =
      _flat_search (constEmbed [1]) (stdCorpus 3) "q" 2 :=
  ⟨rfl,
    (c7_bm25_fallback (constEmbed [1]) downTI (stdCorpus 3) "q" 2 "index unavailable" rfl).1⟩

theorem bm25_search_ok_length {embed : String → Except String Vec}
    {ti : String → Except String (List Chunk)} {corpus : List Chunk}
    {query : String} {k : Nat} {l : List Chunk}
    (hti : ∀ m, ti query = Except.ok m → m.Nodup ∧ ∀ c ∈ m, c ∈ corpus)
    (h : _bm25_search embed ti corpus query k = PyResult.ok l) :
    l.length ≤ min k corpus.length := by
  unfold _bm25_search at h
  cases ht : ti query with
  | ok r =>
      rw [ht] at h
      cases h
      obtain ⟨hnd, hsub⟩ := hti r ht
      have hr := nodup_subset_length hnd hsub
      rw [List.length_take]
      omega
  | error e =>
      rw [ht] at h
      have := flat_search_length h
      omega

/-- When `_flat_search` succeeds, the query embedding succeeded. -/
theorem flat_search_ok_embed {embed : String → Except String Vec} {corpus : List Chunk}
    {query : String} {k : Nat} {l : List Chunk}
    (h : _flat_search embed corpus query k = PyResult.ok l) :
    ∃ qe, embed query = Except.ok qe ∧
      l = ((sortDesc Prod.snd (scanScores qe corpus)).take k).map Prod.fst := by
  unfold _flat_search at h
  cases hq : embed query with
  | error e => rw [hq] at h; cases h
  | ok qe =>
      rw [hq] at h
      cases h
      exact ⟨qe, rfl, rfl⟩

/-- If `_mmr_search` terminates normally, the selection loop consumed one
candidate per round and the result has length
`min top_k (min (top_k * 3) N)` — `min top_k N` in particular. -/
theorem mmr_search_ok_length {embed : String → Except String Vec} {corpus : List Chunk}
    {query : String} {k : Nat} {out : List Chunk}
    (h : _mmr_search embed corpus query k = PyResult.ok out) :
    out.length = min k (min (k * 3) corpus.length) := by
  unfold _mmr_search at h
  cases hf : _flat_search embed corpus query (k * 3) with
  | exc e => rw [hf] at h; cases h
  | hang => rw [hf] at h; cases h
  | ok cands =>
      rw [hf] at h
      have hclen : cands.length = min (k * 3) corpus.length := flat_search_length hf
      cases cands with
      | nil =>
          cases h
          simp only [List.length_nil] at hclen ⊢
          omega
      | cons c0 rest =>
          cases he : embed query with
          | error e => rw [he] at h; cases h
          | ok qe =>
              rw [he] at h
              dsimp only at h
              cases hml : mmrLoop qe k [c0] rest with
              | none => rw [hml] at h; cases h
              | some sel =>
                  rw [hml] at h
                  cases h
                  rw [List.length_cons] at hclen
                  have hk1 : 1 ≤ k := by omega
                  have hlen := mmrLoop_some_length qe k rest.length rest [c0] out rfl
                    (by simpa using hk1) hml
                  rw [List.length_singleton] at hlen
                  omega

theorem flat_search_not_hang (embed : String → Except String Vec) (corpus : List Chunk)
    (query : String) (k : Nat) : _flat_search embed corpus query k ≠ PyResult.hang := by
  unfold _flat_search
  cases embed query <;> simp

theorem hnsw_search_not_hang (embed : String → Except String Vec) (corpus : List Chunk)
    (query : String) (k : Nat) : _hnsw_search embed corpus query k ≠ PyResult.hang := by
  unfold _hnsw_search
  cases embed query <;> simp

theorem ivf_search_not_hang (embed : String → Except String Vec) (corpus : List Chunk)
    (query : String) (k : Nat) : _ivf_search embed corpus query k ≠ PyResult.hang := by
  unfold _ivf_search _ivf_search_p
  cases embed query <;> simp

theorem bm25_search_not_hang (embed : String → Except String Vec)
    (ti : String → Except String (List Chunk)) (corpus : List Chunk)
    (query : String) (k : Nat) : _bm25_search embed ti corpus query k ≠ PyResult.hang := by
  unfold _bm25_search
  cases ti query with
  | ok r => simp
  | error e => exact flat_search_not_hang embed corpus query k

/-- On an empty corpus the MMR candidate pool is empty, so the loop never
starts and `_mmr_search` cannot diverge. -/
theorem mmr_search_empty_not_hang (embed : String → Except String Vec)
    (query : String) (k : Nat) : _mmr_search embed [] query k ≠ PyResult.hang := by
  unfold _mmr_search
  cases hf : _flat_search embed [] query (k * 3) with
  | exc e => simp
  | hang => exact absurd hf (flat_search_not_hang embed [] query (k * 3))
  | ok cands =>
      have := flat_search_length hf
      simp only [List.length_nil] at this
      have hc : cands = [] := by
        rcases cands with _ | _
        · rfl
        · simp at this
      subst hc
      simp

/-- The length bound for a successful dispatch, for any strategy string. -/
theorem dispatch_ok_length {embed : String → Except String Vec}
    {ti : String → Except String (List Chunk)} {corpus : List Chunk}
    {query : String} {k : Nat} {strategy : String} {l : List Chunk}
    (hd : DenseIds corpus)
    (hti : ∀ m, ti query = Except.ok m → m.Nodup ∧ ∀ c ∈ m, c ∈ corpus)
    (h : dispatch embed ti corpus query k strategy = PyResult.ok l) :
    l.length ≤ min k corpus.length := by
  unfold dispatch at h
  by_cases h1 : strategy = "FLAT"
  · rw [if_pos h1] at h
    exact le_of_eq (flat_search_length h)
  · rw [if_neg h1] at h
    by_cases h2 : strategy = "HNSW"
    · rw [if_pos h2] at h
      exact hnsw_search_length h
    · rw [if_neg h2] at h
      by_cases h3 : strategy = "IVF"
      · rw [if_pos h3] at h
        rw [ivf_search_eq_flat embed corpus query k hd] at h
        exact le_of_eq (flat_search_length h)
      · rw [if_neg h3] at h
        by_cases h4 : strategy = "BM25"
        · rw [if_pos h4] at h
          exact bm25_search_ok_length hti h
        · rw [if_neg h4] at h
          by_cases h5 : strategy = "MMR"
          · rw [if_pos h5] at h
            have := mmr_search_ok_length h
            omega
          · rw [if_neg h5] at h
            exact le_of_eq (flat_search_length h)

theorem dispatch_empty_not_hang {embed : String → Except String Vec}
    {ti : String → Except String (List Chunk)} {query : String} {k : Nat} {strategy : String}
    (h : dispatch embed ti [] query k strategy = PyResult.hang) : False := by
  unfold dispatch at h
  by_cases h1 : strategy = "FLAT"
  · rw [if_pos h1] at h; exact flat_search_not_hang _ _ _ _ h
  · rw [if_neg h1] at h
    by_cases h2 : strategy = "HNSW"
    · rw [if_pos h2] at h; exact hnsw_search_not_hang _ _ _ _ h
    · rw [if_neg h2] at h
      by_cases h3 : strategy = "IVF"
      · rw [if_pos h3] at h; exact ivf_search_not_hang _ _ _ _ h
      · rw [if_neg h3] at h
        by_cases h4 : strategy = "BM25"
        · rw [if_pos h4] at h; exact bm25_search_not_hang _ _ _ _ _ h
        · rw [if_neg h4] at h
          by_cases h5 : strategy = "MMR"
          · rw [if_pos h5] at h; exact mmr_search_empty_not_hang _ _ _ h
          · rw [if_neg h5] at h; exact flat_search_not_hang _ _ _ _ h

/-- C5: for every corpus with dense ids, query, `top_k` and strategy
string (the text index returning each matching document of the collection
at most once), whenever `similarity_search` returns a list it has length
at most `min top_k N`, and on an empty corpus every strategy returns the
empty list rather than an error. -/
theorem c5_result_bound (embed : String → Except String Vec)
    (ti : String → Except String (List Chunk)) (corpus : List Chunk)
    (query : String) (top_k : Nat) (strategy : String)
    (hd : DenseIds corpus)
    (hti : ∀ m, ti query = Except.ok m → m.Nodup ∧ ∀ c ∈ m, c ∈ corpus) :
    (∀ out, similarity_search embed ti corpus query top_k strategy = some out →
      out.length ≤ min top_k corpus.length) ∧
    (corpus = [] → similarity_search embed ti corpus query top_k strategy = some []) := by
  constructor
  · intro out hout
    unfold similarity_search at hout
    cases hdisp : dispatch embed ti corpus query top_k strategy with
    | exc e =>
        rw [hdisp] at hout
        cases hout
        simp
    | hang => rw [hdisp] at hout; cases hout
    | ok l =>
        rw [hdisp] at hout
        cases hout
        exact dispatch_ok_length hd hti hdisp
  · intro hc
    subst hc
    unfold similarity_search
    cases hdisp : dispatch embed ti [] query top_k strategy with
    | exc e => rfl
    | hang => exact absurd hdisp (fun hh => dispatch_empty_not_hang hh)
    | ok l =>
        have := dispatch_ok_length hd hti hdisp
        simp only [List.length_nil, Nat.min_zero, Nat.le_zero] at this
        rw [List.length_eq_zero] at this
        rw [this]

theorem c5_witness :
    DenseIds (stdCorpus 3) ∧
    (∀ m, emptyTI "q" = Except.ok m → m.Nodup ∧ ∀ c ∈ m, c ∈ stdCorpus 3) ∧
    (∀ out, similarity_search (constEmbed [1]) emptyTI (stdCorpus 3) "q" 2 "HNSW" = some out →
      out.length ≤ min 2 (stdCorpus 3).length) :=
  ⟨by decide,
    fun m hm => by
      cases hm
      exact ⟨List.nodup_nil, by simp⟩,
    (c5_result_bound (constEmbed [1]) emptyTI (stdCorpus 3) "q" 2 "HNSW" (by decide)
      (fun m hm => by cases hm; exact ⟨List.nodup_nil, by simp⟩)).1⟩

/-- Two chunks anti-parallel to the query: every remaining candidate then
has relevance `-1` and similarity `1` to the selected chunk, so its MMR
score is exactly `-1`, which never beats `best_score = -1`. -/
def hangCorpus : List Chunk := [⟨0, "a", [-1]⟩, ⟨1, "b", [-1]⟩]

theorem intSqrt_one : intSqrt? 1 = some 1 := by decide

theorem cosSim_one_negone : cosSim [1] [-1] = FV.val (-1) := by
  norm_num [cosSim, fdiv, np_norm, ratSqrt, np_dot, intSqrt_one]

theorem cosSim_negone_negone : cosSim [-1] [-1] = FV.val 1 := by
  norm_num [cosSim, fdiv, np_norm, ratSqrt, np_dot, intSqrt_one]

theorem cosSim_one_one : cosSim [1] [1] = FV.val 1 := by
  norm_num [cosSim, fdiv, np_norm, ratSqrt, np_dot, intSqrt_one]

theorem hang_mmrScore : mmrScore [1] [⟨0, "a", [-1]⟩] ⟨1, "b", [-1]⟩ = FV.val (-1) := by
  norm_num [mmrScore, cosSim_one_negone, cosSim_negone_negone, fvMax, FV.lt, FV.mul, FV.sub,
    lambda_mult]

theorem hang_findBest : findBest [1] [⟨0, "a", [-1]⟩] [⟨1, "b", [-1]⟩] = none := by
  unfold findBest
  rw [findBestAux, hang_mmrScore]
  norm_num [FV.lt, findBestAux]

theorem hang_flat : _flat_search (constEmbed [1]) hangCorpus "q" (2 * 3) =
    PyResult.ok [⟨0, "a", [-1]⟩, ⟨1, "b", [-1]⟩] := by
  unfold _flat_search constEmbed
  have hscan : scanScores [1] hangCorpus =
      [(⟨0, "a", [-1]⟩, FV.val (-1)), (⟨1, "b", [-1]⟩, FV.val (-1))] := by
    simp [scanScores, hangCorpus, cosSim_one_negone]
  dsimp only
  rw [hscan]
  norm_num [sortDesc, insertDesc, FV.lt]

/-- C10 counterexample: with query embedding `[1]`, corpus `hangCorpus`
and `top_k = 2`, no candidate's MMR score ever exceeds the `-1` seed of
`best_score`, `best_candidate` stays `None`, the loop body removes
nothing, and the `while` loop of `_mmr_search` runs forever. -/
theorem c10_counterexample :
    _mmr_search (constEmbed [1]) hangCorpus "q" 2 = PyResult.hang := by
  unfold _mmr_search
  rw [hang_flat]
  dsimp only [constEmbed]
  have hloop : mmrLoop [1] 2 [⟨0, "a", [-1]⟩] [⟨1, "b", [-1]⟩] = none := by
    rw [mmrLoop]
    rw [if_pos (by refine ⟨by simp, by simp⟩)]
    split
    · rfl
    · rename_i idx best hfb
      rw [hang_findBest] at hfb
      cases hfb
  rw [hloop]

/-- C10 amended: each iteration of the MMR loop that selects a candidate
removes exactly one candidate from the pool, so whenever the loop
terminates the result has length `min top_k (pool size)` with pool size
`min (top_k * 3) N`; but the loop need not terminate — when no remaining
candidate scores above `-1` (see the counterexample) nothing is ever
removed and the search diverges. -/
theorem c10_mmr_length (embed : String → Except String Vec) (corpus : List Chunk)
    (query : String) (top_k : Nat) (out : List Chunk)
    (h : _mmr_search embed corpus query top_k = PyResult.ok out) :
    out.length = min top_k (min (top_k * 3) corpus.length) :=
  mmr_search_ok_length h

theorem mmr_on_stdCorpus_one :
    _mmr_search (constEmbed [1]) (stdCorpus 1) "q" 1 = PyResult.ok [⟨0, "", [1]⟩] := by
  unfold _mmr_search
  have hflat1 : _flat_search (constEmbed [1]) (stdCorpus 1) "q" (1 * 3) =
      PyResult.ok [⟨0, "", [1]⟩] := by decide
  rw [hflat1]
  dsimp only [constEmbed]
  rw [mmrLoop]
  simp

theorem c10_witness :
    _mmr_search (constEmbed [1]) (stdCorpus 1) "q" 1 = PyResult.ok [⟨0, "", [1]⟩] ∧
    [(⟨0, "", [1]⟩ : Chunk)].length = min 1 (min (1 * 3) (stdCorpus 1).length) :=
  ⟨mmr_on_stdCorpus_one,
    c10_mmr_length (constEmbed [1]) (stdCorpus 1) "q" 1 [⟨0, "", [1]⟩] mmr_on_stdCorpus_one⟩

theorem scan_mem_snd {qe : Vec} {corpus : List Chunk} {p : Chunk × FV}
    (hp : p ∈ scanScores qe corpus) : p.2 = cosSim qe p.1.embedding := by
  unfold scanScores at hp
  obtain ⟨c, _, rfl⟩ := List.mem_map.mp hp
  rfl

theorem scanScores_map_fst (qe : Vec) :
    ∀ l : List (Chunk × FV), (∀ p ∈ l, p.2 = cosSim qe p.1.embedding) →
      scanScores qe (l.map Prod.fst) = l := by
  intro l
  induction l with
  | nil => intro _; rfl
  | cons p t ih =>
      intro h
      unfold scanScores at ih ⊢
      rw [List.map_cons, List.map_cons]
      rw [ih (fun x hx => h x (by simp [hx]))]
      have hp := h p (by simp)
      rw [← hp]

/-- C9: whenever the over-fetched pool of `_mmr_search` is non-empty, its
head `c0` is exactly what the Exact handler returns as top-1 over the pool
itself (re-scoring the already stably-sorted pool leaves it fixed), the
selection starts with `[c0]` and the greedy loop runs on the pool minus
`c0`. -/
theorem c9_mmr_first_is_top1 (embed : String → Except String Vec) (corpus : List Chunk)
    (query : String) (top_k : Nat) (qe : Vec) (c0 : Chunk) (rest : List Chunk)
    (hq : embed query = Except.ok qe)
    (hpool : _flat_search embed corpus query (top_k * 3) = PyResult.ok (c0 :: rest)) :
    _flat_search embed (c0 :: rest) query 1 = PyResult.ok [c0] ∧
    _mmr_search embed corpus query top_k =
      (match mmrLoop qe top_k [c0] rest with
       | none => PyResult.hang
       | some selected => PyResult.ok selected) := by
  obtain ⟨qe', hq', hl⟩ := flat_search_ok_embed hpool
  rw [hq] at hq'
  cases hq'
  constructor
  · unfold _flat_search
    rw [hq]
    dsimp only
    have hsub : ∀ p ∈ (sortDesc Prod.snd (scanScores qe corpus)).take (top_k * 3),
        p.2 = cosSim qe p.1.embedding := by
      intro p hp
      exact scan_mem_snd ((mem_sortDesc Prod.snd).mp (List.mem_of_mem_take hp))
    have hP : scanScores qe (c0 :: rest) =
        (sortDesc Prod.snd (scanScores qe corpus)).take (top_k * 3) := by
      rw [hl]
      exact scanScores_map_fst qe _ hsub
    rw [hP]
    have hfix : sortDesc Prod.snd ((sortDesc Prod.snd (scanScores qe corpus)).take (top_k * 3)) =
        (sortDesc Prod.snd (scanScores qe corpus)).take (top_k * 3) :=
      sortDesc_fixed Prod.snd _ (List.Chain'.take (chain_sortDesc Prod.snd _) _)
    rw [hfix]
    cases hPl : (sortDesc Prod.snd (scanScores qe corpus)).take (top_k * 3) with
    | nil => rw [hPl] at hl; simp at hl
    | cons p0 pr =>
        rw [hPl] at hl
        rw [List.map_cons] at hl
        have hc0 : c0 = p0.1 := (List.cons_eq_cons.mp hl).1
        rw [List.take_succ_cons, List.take_zero, List.map_cons, List.map_nil, hc0]
  · unfold _mmr_search
    rw [hpool]
    dsimp only
    rw [hq]

theorem c9_witness :
    constEmbed [1] "q" = Except.ok [1] ∧
    _flat_search (constEmbed [1]) (stdCorpus 1) "q" (1 * 3) = PyResult.ok [⟨0, "", [1]⟩] ∧
    (_flat_search (constEmbed [1]) [⟨0, "", [1]⟩] "q" 1 = PyResult.ok [⟨0, "", [1]⟩] ∧
      _mmr_search (constEmbed [1]) (stdCorpus 1) "q" 1 =
        (match mmrLoop [1] 1 [⟨0, "", [1]⟩] [] with
         | none => PyResult.hang
         | some selected => PyResult.ok selected)) :=
  ⟨rfl, by decide,
    c9_mmr_first_is_top1 (constEmbed [1]) (stdCorpus 1) "q" 1 [1] ⟨0, "", [1]⟩ []
      rfl (by decide)⟩

theorem cosSim_negone_one : cosSim [-1] [1] = FV.val (-1) := by
  norm_num [cosSim, fdiv, np_norm, ratSqrt, np_dot, intSqrt_one]

/-- Modelled from the spec's words for comparison with the code: the MMR
score with `diversity_penalty = max over s in selected of
score(c.embedding, s.embedding)` — the true maximum over the selected
list, with no `0` floor.  (The `[]` case is unreachable: `selected` is
non-empty throughout the loop.) -/
def mmrScoreSpec (qe : Vec) (selected : List Chunk) (c : Chunk) : FV :=
  let relevance := cosSim qe c.embedding
  let penalty :=
    match selected.map (fun s => cosSim c.embedding s.embedding) with
    | [] => FV.val 0
    | x :: xs => xs.foldl fvMax x
  FV.sub (FV.mul (FV.val lambda_mult) relevance)
    (FV.mul (FV.val (1 - lambda_mult)) penalty)

theorem mmrScore_c3_val :
    mmrScore [1] [⟨0, "a", [1]⟩] ⟨1, "b", [-1]⟩ = FV.val (-(1 / 2)) := by
  norm_num [mmrScore, cosSim_one_negone, cosSim_negone_one, fvMax, FV.lt, FV.mul, FV.sub,
    lambda_mult]

/-- C3 counterexample: with query embedding `[1]`, `selected` holding the
top-1 chunk embedded as `[1]` and remaining candidate embedded as `[-1]`
(the state `_mmr_search` reaches on that two-chunk corpus with
`top_k = 2`), the code's score is `0.5·(-1) - 0.5·max(0, -1) = -0.5`
while the claimed formula gives `0.5·(-1) - 0.5·(-1) = 0`: the code
floors the diversity penalty at `0` (`max_similarity` starts at `0`), the
claimed formula does not. -/
theorem c3_counterexample :
    mmrScore [1] [⟨0, "a", [1]⟩] ⟨1, "b", [-1]⟩ = FV.val (-(1 / 2)) ∧
    mmrScoreSpec [1] [⟨0, "a", [1]⟩] ⟨1, "b", [-1]⟩ = FV.val 0 ∧
    mmrScore [1] [⟨0, "a", [1]⟩] ⟨1, "b", [-1]⟩ ≠
      mmrScoreSpec [1] [⟨0, "a", [1]⟩] ⟨1, "b", [-1]⟩ := by
  have ha := mmrScore_c3_val
  have hb : mmrScoreSpec [1] [⟨0, "a", [1]⟩] ⟨1, "b", [-1]⟩ = FV.val 0 := by
    norm_num [mmrScoreSpec, cosSim_one_negone, cosSim_negone_one, FV.mul, FV.sub, lambda_mult]
  refine ⟨ha, hb, ?_⟩
  rw [ha, hb]
  intro hcontra
  exact absurd (FV.val.inj hcontra) (by norm_num)

/-- C3 amended: in every round, the score used for candidate `c` is
`lambda_mult · relevance − (1 − lambda_mult) · max(0, max over s in
selected of score(c, s))` (the `0` floor comes from `max_similarity = 0`);
when some candidate scores strictly above the `-1` seed, the selected
candidate is the earliest one attaining the maximal score (strictly above
every earlier score, not below any score); when no candidate scores above
`-1`, none is selected (and the loop stalls — see C10). -/
theorem c3_selection_rule (qe : Vec) (sel cand : List Chunk)
    (hval : ∀ c ∈ cand, mmrScore qe sel c ≠ FV.nan) :
    (∀ i c, findBest qe sel cand = some (i, c) →
      i < cand.length ∧ cand.getD i default = c ∧
      FV.lt (FV.val (-1)) (scoreAt qe sel cand i) = true ∧
      (∀ j, j < i → FV.lt (scoreAt qe sel cand j) (scoreAt qe sel cand i) = true) ∧
      (∀ j, j < cand.length →
        FV.lt (scoreAt qe sel cand i) (scoreAt qe sel cand j) = false)) ∧
    (findBest qe sel cand = none → ∀ j, j < cand.length →
      FV.lt (FV.val (-1)) (scoreAt qe sel cand j) = false) ∧
    (∀ c, mmrScore qe sel c =
      FV.sub (FV.mul (FV.val lambda_mult) (cosSim qe c.embedding))
        (FV.mul (FV.val (1 - lambda_mult))
          (sel.foldl (fun m s => fvMax m (cosSim c.embedding s.embedding)) (FV.val 0)))) := by
  have hchar := findBest_char qe sel cand hval
  refine ⟨?_, ?_, fun c => rfl⟩
  · intro i c hfb
    rcases hchar with ⟨heq, _⟩ | ⟨i', hi', hsome, hpos, hbef, haft⟩
    · rw [heq] at hfb
      cases hfb
    · rw [hsome] at hfb
      cases hfb
      exact ⟨hi', rfl, hpos, hbef, haft⟩
  · intro hn j hj
    rcases hchar with ⟨_, hall⟩ | ⟨i', _, hsome, _, _, _⟩
    · exact hall j hj
    · rw [hsome] at hn
      cases hn

theorem c3_witness :
    (∀ c ∈ [(⟨1, "b", [-1]⟩ : Chunk)], mmrScore [1] [⟨0, "a", [1]⟩] c ≠ FV.nan) ∧
    (findBest [1] [⟨0, "a", [1]⟩] [⟨1, "b", [-1]⟩] = none →
      ∀ j, j < ([(⟨1, "b", [-1]⟩ : Chunk)]).length →
        FV.lt (FV.val (-1)) (scoreAt [1] [⟨0, "a", [1]⟩] [⟨1, "b", [-1]⟩] j) = false) := by
  have hval : ∀ c ∈ [(⟨1, "b", [-1]⟩ : Chunk)], mmrScore [1] [⟨0, "a", [1]⟩] c ≠ FV.nan := by
    intro c hc
    rcases List.mem_singleton.mp hc with rfl
    rw [mmrScore_c3_val]
    intro hcontra
    cases hcontra
  exact ⟨hval, (c3_selection_rule [1] [⟨0, "a", [1]⟩] [⟨1, "b", [-1]⟩] hval).2.1⟩

theorem getD_eq_get {α : Type} (d : α) :
    ∀ (l : List α) (m : Nat) (h : m < l.length), l.getD m d = l.get ⟨m, h⟩ := by
  intro l
  induction l with
  | nil => intro m h; simp at h
  | cons a t ih =>
      intro m h
      cases m with
      | zero => rfl
      | succ m => exact ih m (by simp at h; omega)

theorem getD_mem_of_lt {α : Type} (d : α) :
    ∀ (l : List α) (m : Nat), m < l.length → l.getD m d ∈ l := by
  intro l
  induction l with
  | nil => intro m h; simp at h
  | cons a t ih =>
      intro m h
      cases m with
      | zero => simp [List.getD_cons_zero]
      | succ m =>
          rw [List.getD_cons_succ]
          exact List.mem_cons_of_mem a (ih m (by simp at h; omega))

theorem getD_map_fst (d : Chunk) (p : Chunk × FV) :
    ∀ (l : List (Chunk × FV)) (m : Nat), m < l.length →
      (l.map Prod.fst).getD m d = (l.getD m p).1 := by
  intro l
  induction l with
  | nil => intro m h; simp at h
  | cons a t ih =>
      intro m h
      cases m with
      | zero => rfl
      | succ m => exact ih m (by simp at h; omega)

theorem pairwise_getD {α : Type} {R : α → α → Prop} {l : List α} (h : l.Pairwise R)
    (d : α) (i j : Nat) (hij : i < j) (hj : j < l.length) : R (l.getD i d) (l.getD j d) := by
  have hi : i < l.length := lt_trans hij hj
  rw [getD_eq_get d l i hi, getD_eq_get d l j hj]
  exact List.pairwise_iff_get.mp h ⟨i, hi⟩ ⟨j, hj⟩ hij

/-- A two-chunk corpus whose first embedding is the zero vector. -/
def nanCorpus : List Chunk := [⟨0, "a", [0]⟩, ⟨1, "b", [1]⟩]

theorem cosSim_one_zero : cosSim [1] [0] = FV.nan := by
  norm_num [cosSim, fdiv, np_norm, ratSqrt, np_dot, intSqrt_one]

/-- C4 counterexample: with query embedding `[1]` over `nanCorpus`, the
zero-vector chunk scores NaN, the sort (one comparison, `NaN < 1.0`,
false — matching CPython's reverse/sort/reverse on two elements) leaves
it first, and the output scores `NaN, 1.0` are not non-increasing: the
IEEE comparison `1.0 <= NaN` is false. -/
theorem c4_counterexample :
    _flat_search (constEmbed [1]) nanCorpus "q" 5 =
      PyResult.ok [⟨0, "a", [0]⟩, ⟨1, "b", [1]⟩] ∧
    cosSim [1] [0] = FV.nan ∧
    FV.le (cosSim [1] ([1] : Vec)) (cosSim [1] ([0] : Vec)) = false := by
  refine ⟨?_, cosSim_one_zero, by rw [cosSim_one_zero, cosSim_one_one]; rfl⟩
  unfold _flat_search constEmbed
  dsimp only
  have hscan : scanScores [1] nanCorpus =
      [(⟨0, "a", [0]⟩, FV.nan), (⟨1, "b", [1]⟩, FV.val 1)] := by
    simp [scanScores, nanCorpus, cosSim_one_zero, cosSim_one_one]
  rw [hscan]
  norm_num [sortDesc, insertDesc, FV.lt]

/-- C4 amended: for a dense corpus on which no score is NaN (no zero-norm
embedding and a non-zero-norm query), the Exact handler is deterministic
(equal inputs give the unique equal output), its output scores are
non-increasing (no later element scores strictly above an earlier one),
and equal-scored elements appear in ascending `chunk_id` order; with a
zero-norm vector a NaN score breaks the non-increasing property (see the
counterexample). -/
theorem c4_flat_sorted_stable (embed : String → Except String Vec) (corpus : List Chunk)
    (query : String) (top_k : Nat) (qe : Vec) (out : List Chunk)
    (hq : embed query = Except.ok qe)
    (hd : DenseIds corpus)
    (hnn : ∀ c ∈ corpus, cosSim qe c.embedding ≠ FV.nan)
    (hout : _flat_search embed corpus query top_k = PyResult.ok out) :
    (∀ out', _flat_search embed corpus query top_k = PyResult.ok out' → out' = out) ∧
    (∀ i j, i < j → j < out.length →
      FV.lt (cosSim qe (out.getD i default).embedding)
        (cosSim qe (out.getD j default).embedding) = false ∧
      (cosSim qe (out.getD i default).embedding = cosSim qe (out.getD j default).embedding →
        (out.getD i default).chunk_id < (out.getD j default).chunk_id)) := by
  refine ⟨?_, ?_⟩
  · intro out' h'
    rw [hout] at h'
    cases h'
    rfl
  · obtain ⟨qe2, hq2, hlout⟩ := flat_search_ok_embed hout
    rw [hq] at hq2
    cases hq2
    subst hlout
    have hscan_pw : (scanScores qe corpus).Pairwise (fun a b => a.1.chunk_id < b.1.chunk_id) := by
      have h1 : (corpus.map Chunk.chunk_id).Pairwise (fun a b => a < b) := by
        rw [hd]
        exact List.pairwise_lt_range _
      have h2 : corpus.Pairwise (fun a b => a.chunk_id < b.chunk_id) :=
        List.pairwise_map.mp h1
      exact List.pairwise_map.mpr h2
    have hvals : ∀ p ∈ scanScores qe corpus, ∃ q, Prod.snd p = FV.val q := by
      intro p hp
      have hsnd := scan_mem_snd hp
      have hmem : p.1 ∈ corpus := by
        unfold scanScores at hp
        obtain ⟨c, hc, rfl⟩ := List.mem_map.mp hp
        exact hc
      have := hnn p.1 hmem
      rw [← hsnd] at this
      cases hcase : p.2 with
      | nan => exact absurd hcase this
      | val q => exact ⟨q, rfl⟩
    have hPW := pairwise_sortDesc Prod.snd (fun p => p.1.chunk_id)
      (scanScores qe corpus) hscan_pw hvals
    have hPWt : ((sortDesc Prod.snd (scanScores qe corpus)).take top_k).Pairwise
        (SRel Prod.snd (fun p => p.1.chunk_id)) :=
      List.Pairwise.sublist (List.take_sublist top_k _) hPW
    intro i j hij hj
    rw [List.length_map] at hj
    have hi : i < ((sortDesc Prod.snd (scanScores qe corpus)).take top_k).length :=
      lt_trans hij hj
    have hgi := getD_map_fst default (default, FV.nan) _ i hi
    have hgj := getD_map_fst default (default, FV.nan) _ j hj
    rw [hgi, hgj]
    have hSR := pairwise_getD hPWt (default, FV.nan) i j hij hj
    have hsnd_of : ∀ m, m < ((sortDesc Prod.snd (scanScores qe corpus)).take top_k).length →
        (((sortDesc Prod.snd (scanScores qe corpus)).take top_k).getD m (default, FV.nan)).2 =
          cosSim qe
            ((((sortDesc Prod.snd (scanScores qe corpus)).take top_k).getD
              m (default, FV.nan)).1).embedding := by
      intro m hm
      apply scan_mem_snd
      apply (mem_sortDesc Prod.snd).mp
      apply List.mem_of_mem_take
      exact getD_mem_of_lt (default, FV.nan) _ m hm
    have hki := hsnd_of i hi
    have hkj := hsnd_of j hj
    rw [← hki, ← hkj]
    rcases hSR with hlt | ⟨heq, hrank⟩
    · constructor
      · exact fvLt_asymm hlt
      · intro heq2
        rw [heq2] at hlt
        rw [fvLt_irrefl] at hlt
        cases hlt
    · constructor
      · rw [heq]
        exact fvLt_irrefl _
      · intro _
        exact hrank

/-- Two chunks with identical unit embeddings: a score tie. -/
def tieCorpus : List Chunk := [⟨0, "", [1]⟩, ⟨1, "", [1]⟩]

theorem flat_on_tieCorpus :
    _flat_search (constEmbed [1]) tieCorpus "q" 5 =
      PyResult.ok [⟨0, "", [1]⟩, ⟨1, "", [1]⟩] := by
  unfold _flat_search constEmbed
  dsimp only
  have hscan : scanScores [1] tieCorpus =
      [(⟨0, "", [1]⟩, FV.val 1), (⟨1, "", [1]⟩, FV.val 1)] := by
    simp [scanScores, tieCorpus, cosSim_one_one]
  rw [hscan]
  norm_num [sortDesc, insertDesc, FV.lt]

theorem c4_witness :
    constEmbed [1] "q" = Except.ok [1] ∧ DenseIds tieCorpus ∧
    (∀ c ∈ tieCorpus, cosSim [1] c.embedding ≠ FV.nan) ∧
    ((∀ out', _flat_search (constEmbed [1]) tieCorpus "q" 5 = PyResult.ok out' →
        out' = [⟨0, "", [1]⟩, ⟨1, "", [1]⟩]) ∧
      (∀ i j, i < j → j < ([(⟨0, "", [1]⟩ : Chunk), ⟨1, "", [1]⟩]).length →
        FV.lt (cosSim [1] (([(⟨0, "", [1]⟩ : Chunk), ⟨1, "", [1]⟩]).getD i default).embedding)
          (cosSim [1] (([(⟨0, "", [1]⟩ : Chunk), ⟨1, "", [1]⟩]).getD j default).embedding) =
            false ∧
        (cosSim [1] (([(⟨0, "", [1]⟩ : Chunk), ⟨1, "", [1]⟩]).getD i default).embedding =
            cosSim [1] (([(⟨0, "", [1]⟩ : Chunk), ⟨1, "", [1]⟩]).getD j default).embedding →
          (([(⟨0, "", [1]⟩ : Chunk), ⟨1, "", [1]⟩]).getD i default).chunk_id <
            (([(⟨0, "", [1]⟩ : Chunk), ⟨1, "", [1]⟩]).getD j default).chunk_id))) := by
  have hnn : ∀ c ∈ tieCorpus, cosSim [1] c.embedding ≠ FV.nan := by
    intro c hc
    simp only [tieCorpus, List.mem_cons, List.mem_singleton, List.not_mem_nil, or_false] at hc
    rcases hc with rfl | rfl
    · show cosSim [1] [1] ≠ FV.nan
      rw [cosSim_one_one]
      intro hcontra
      cases hcontra
    · show cosSim [1] [1] ≠ FV.nan
      rw [cosSim_one_one]
      intro hcontra
      cases hcontra
  exact ⟨rfl, by decide, hnn,
    c4_flat_sorted_stable (constEmbed [1]) tieCorpus "q" 5 [1]
      [⟨0, "", [1]⟩, ⟨1, "", [1]⟩] rfl (by decide) hnn flat_on_tieCorpus⟩
